import Mathlib

/-!
Shallow embedding of `dvc/commands/dag.py`: the label-graph pipeline behind
`dvc dag` (build, scope filter, optional group collapse, render), together
with proofs about the properties its specification states.
-/

namespace DvcDag

/-- A label graph: a directed graph over string labels, nodes kept in
insertion order as networkx keeps them.  An edge `(a, b)` means
"`a` depends on `b`". -/
structure Graph where
  nodes : List String
  edges : List (String × String)
deriving DecidableEq

/-- Wellformedness of a graph snapshot (spec, Data model): no duplicate
labels, and every edge endpoint is present in the node set. -/
def Graph.Wf (g : Graph) : Prop :=
  g.nodes.Nodup ∧ ∀ e ∈ g.edges, e.1 ∈ g.nodes ∧ e.2 ∈ g.nodes

instance (g : Graph) : Decidable g.Wf := by
  unfold Graph.Wf; infer_instance

/-- networkx `add_node`: appends the node when absent. -/
def addNode (g : Graph) (n : String) : Graph :=
  if n ∈ g.nodes then g else { g with nodes := g.nodes ++ [n] }

/-- networkx `add_nodes_from`. -/
def add_nodes_from (g : Graph) (ns : List String) : Graph :=
  ns.foldl addNode g

/-- networkx `add_edge`: adds missing endpoints, then the edge when absent. -/
def addEdge (g : Graph) (e : String × String) : Graph :=
  let g1 := addNode (addNode g e.1) e.2
  if e ∈ g1.edges then g1 else { g1 with edges := g1.edges ++ [e] }

/-- networkx `add_edges_from`. -/
def add_edges_from (g : Graph) (es : List (String × String)) : Graph :=
  es.foldl addEdge g

/-- networkx `remove_edges_from`. -/
def remove_edges_from (g : Graph) (es : List (String × String)) : Graph :=
  { g with edges := g.edges.filter (fun e => decide (e ∉ es)) }

/-- networkx `remove_nodes_from`: removes the nodes and their incident
edges. -/
def remove_nodes_from (g : Graph) (ns : List String) : Graph :=
  { nodes := g.nodes.filter (fun n => decide (n ∉ ns)),
    edges := g.edges.filter (fun e => decide (e.1 ∉ ns) && decide (e.2 ∉ ns)) }

/-- networkx `remove_nodes_from`, applied to a Python set of labels. -/
def remove_nodes_from_set (g : Graph) (s : Finset String) : Graph :=
  { nodes := g.nodes.filter (fun n => decide (n ∉ s)),
    edges := g.edges.filter (fun e => decide (e.1 ∉ s) && decide (e.2 ∉ s)) }

/-- The prefix of `l` strictly before the first occurrence of `sep`
(all of `l` when `sep` does not occur): the list-of-characters semantics of
Python `s.split(sep)[0]`. -/
def splitHead (sep : Char) : List Char → List Char
  | [] => []
  | c :: cs => if c = sep then [] else c :: splitHead sep cs

/-- Python `label.split("@")[0]`: the group key of a label (the label itself
when it has no separator). -/
def groupKey (s : String) : String := String.mk (splitHead '@' s.data)

/-- Python `"@" in label`. -/
def hasSep (s : String) : Bool := s.data.contains '@'

/-- `_collapse_get_nodes` (dag.py lines 130-138).  The
`new_nodes.add(_node.split("@")[0])` statement sits after the loop, so it
reads the loop variable once the loop is over: on an empty node list the
Python raises `NameError` (modelled as `none`), and otherwise only the last
iterated node contributes a representative. -/
def _collapse_get_nodes (g : Graph) : Option (List String × List String) :=
  match g.nodes.getLast? with
  | none => none
  | some last => some ([groupKey last], g.nodes.filter (fun n => hasSep n))

/-- `_collapse_get_edges` (dag.py lines 141-157): the pair
`(new_edges, edges_to_remove)`.  An edge is rewritten when either endpoint
contains the separator; each such endpoint is replaced by its group key. -/
def _collapse_get_edges (g : Graph) : List (String × String) × List (String × String) :=
  let relevant := g.edges.filter (fun e => hasSep e.1 || hasSep e.2)
  (relevant.map (fun e =>
      ((if hasSep e.1 then groupKey e.1 else e.1),
       (if hasSep e.2 then groupKey e.2 else e.2))),
   relevant)

/-- `_collapse_graph` (dag.py lines 160-167): remove the rewritten edges, add
the representative nodes, add the rewritten edges, remove the `@`-labelled
nodes. -/
def _collapse_graph (g : Graph) : Option Graph :=
  match _collapse_get_nodes g with
  | none => none
  | some (new_nodes, nodes_to_remove) =>
    let p := _collapse_get_edges g
    some (remove_nodes_from
      (add_edges_from (add_nodes_from (remove_edges_from g p.2) new_nodes) p.1)
      nodes_to_remove)

/-- One breadth-first expansion step over the label set `nodes` along the
step relation `r`: used to give the library traversals (`nx.descendants`,
`nx.node_connected_component`) their standard least-fixed-point semantics. -/
def stepOnce (nodes : Finset String) (r : String → String → Bool)
    (s : Finset String) : Finset String :=
  s ∪ nodes.filter (fun v => ∃ u ∈ s, r u v = true)

/-- Iterated expansion with explicit fuel. -/
def closureFuel (nodes : Finset String) (r : String → String → Bool) :
    Nat → Finset String → Finset String
  | 0, s => s
  | n + 1, s => closureFuel nodes r n (stepOnce nodes r s)

/-- Everything reachable from `a` along `r` through `nodes`
(`nodes.card` expansion steps always suffice). -/
def reachSet (nodes : Finset String) (r : String → String → Bool)
    (a : String) : Finset String :=
  closureFuel nodes r nodes.card {a}

/-- The single step underlying `reachSet`. -/
def ReachRel (nodes : Finset String) (r : String → String → Bool)
    (x y : String) : Prop :=
  r x y = true ∧ y ∈ nodes

/-- Reachability along `r` through `nodes`. -/
def Reaches (nodes : Finset String) (r : String → String → Bool)
    (a b : String) : Prop :=
  Relation.ReflTransGen (ReachRel nodes r) a b

/-- Edge membership as a step relation. -/
def edgeRel (g : Graph) (u v : String) : Bool := decide ((u, v) ∈ g.edges)

/-- One step of `g.to_undirected()`: the symmetric closure of the edges. -/
def undirRel (g : Graph) (u v : String) : Bool := edgeRel g u v || edgeRel g v u

/-- `nx.descendants(g, t)`: all nodes reachable from `t`, excluding `t`. -/
def descendants (g : Graph) (t : String) : Finset String :=
  (reachSet g.nodes.toFinset (edgeRel g) t).erase t

/-- `nx.node_connected_component(g.to_undirected(), t)`: includes `t`. -/
def node_connected_component (g : Graph) (t : String) : Finset String :=
  reachSet g.nodes.toFinset (undirRel g) t

/-- `_filter` (dag.py lines 107-127). -/
def _filter (g : Graph) (targets : List String) (full : Bool) : Graph :=
  if targets.isEmpty then g
  else
    let new_graph :=
      if full then g
      else
        let descs := targets.foldl (fun acc t => (acc ∪ descendants g t) ∪ {t}) ∅
        remove_nodes_from_set g (g.nodes.toFinset \ descs)
    let connected :=
      targets.foldl (fun acc t => acc ∪ node_connected_component new_graph t) ∅
    remove_nodes_from_set new_graph (new_graph.nodes.toFinset \ connected)

/-- `_build` (dag.py lines 170-176), embedded over the outputs of its two
externally fed steps: `targets` stands for `_collect_targets(...)` and `g`
for the label graph `_transform(...)` returns.  The collapse branch passes
`graph`, not `filtered_graph`, exactly as the source does. -/
def _build (g : Graph) (targets : List String) (full collapse : Bool) : Option Graph :=
  let filtered_graph := _filter g targets full
  if collapse then _collapse_graph g else some filtered_graph

/-- `_quote_label` (dag.py lines 25-31).  Python indexes `label[0]` and
`label[-1]`, which raises `IndexError` on the empty label (modelled as
`none`); the label is wrapped in double quotes when it neither starts nor
ends with one. -/
def _quote_label (label : String) : Option String :=
  match label.data with
  | [] => none
  | c :: cs =>
    if c ≠ '"' ∧ (c :: cs).getLast (List.cons_ne_nil c cs) ≠ '"' then
      some (String.mk ('"' :: label.data ++ ['"']))
    else
      some label

/-- Sequence a partial relabelling over a list, propagating failure. -/
def mapOption {α β : Type} (f : α → Option β) : List α → Option (List β)
  | [] => some []
  | a :: as =>
    match f a, mapOption f as with
    | some b, some bs => some (b :: bs)
    | _, _ => none

/-- Relabel both endpoints of one edge. -/
def relabelEdge (f : String → Option String) (e : String × String) :
    Option (String × String) :=
  match f e.1, f e.2 with
  | some a, some b => some (a, b)
  | _, _ => none

/-- `nx.relabel_nodes(graph, f, copy=False)`: every node and every edge
endpoint is relabelled in place (nodes mapped to an equal label merge);
`none` when the relabelling function raises. -/
def relabel_nodes (f : String → Option String) (g : Graph) : Option Graph :=
  match mapOption f g.nodes, mapOption (relabelEdge f) g.edges with
  | some ns, some es => some { nodes := ns.dedup, edges := es.dedup }
  | _, _ => none

/-- `graph.reverse()`: same nodes, every edge flipped. -/
def Graph.reverse (g : Graph) : Graph :=
  { nodes := g.nodes, edges := g.edges.map (fun e => (e.2, e.1)) }

/-- `_show_dot` (dag.py lines 34-44): relabels the caller's graph in place
(`copy=False`), then hands `graph.reverse()` to the external pydot writer.
The pair returned is (the graph `write_dot` serializes, the post-call state
of the caller's graph). -/
def _show_dot (g : Graph) : Option (Graph × Graph) :=
  match relabel_nodes _quote_label g with
  | none => none
  | some relabeled => some (relabeled.reverse, relabeled)

/-- Modelled from the spec: `get_pipelines` (from `dvc.repo.graph`, which is
not part of src/) "returns its weakly-connected components as independent
sub-graphs (pipelines), each with its own node/edge set", listed here in
order of each component's first node. -/
def get_pipelines (g : Graph) : List Graph :=
  ((g.nodes.map (fun n => node_connected_component g n)).dedup).map
    (fun c => remove_nodes_from_set g (g.nodes.toFinset \ c))

/-- Python tuple order on label pairs. -/
def pairLe (a b : String × String) : Prop :=
  a.1 < b.1 ∨ (a.1 = b.1 ∧ a.2 ≤ b.2)

instance : DecidableRel pairLe := fun a b => by
  unfold pairLe; infer_instance

/-- Python `sorted` over labels. -/
def sortedNodes (l : List String) : List String :=
  List.insertionSort (fun a b => a ≤ b) l

/-- Python `sorted` over label pairs. -/
def sortedPairs (l : List (String × String)) : List (String × String) :=
  List.insertionSort pairLe l

/-- The synthetic-identifier table of one pipeline: its sorted nodes paired
with `node{base+1}`, `node{base+2}`, …; `total_nodes` continues across
pipelines, so the offset `base` is the number of nodes already emitted. -/
def node_ids (p : Graph) (base : Nat) : List (String × String) :=
  (sortedNodes p.nodes).enum.map (fun q => (q.2, "node" ++ toString (base + q.1 + 1)))

/-- Python `node_ids[label]` dictionary lookup. -/
def lookupId (ids : List (String × String)) (n : String) : String :=
  match ids.find? (fun q => q.1 == n) with
  | some q => q.2
  | none => ""

/-- The `\n\t`-separated lines one pipeline contributes to the flowchart:
one declaration line per sorted node, then one arrow line per sorted
reversed edge. -/
def mermaidPipelineLines (base : Nat) (p : Graph) : List String :=
  let ids := node_ids p base
  ids.map (fun q => q.2 ++ "[\"" ++ q.1 ++ "\"]") ++
    (sortedPairs (p.edges.map (fun e => (e.2, e.1)))).map
      (fun e => lookupId ids e.1 ++ "-->" ++ lookupId ids e.2)

/-- The lines of every pipeline, threading the node counter. -/
def mermaidLinesAux : Nat → List Graph → List String
  | _, [] => []
  | base, p :: ps => mermaidPipelineLines base p ++ mermaidLinesAux (base + p.nodes.length) ps

/-- All lines `_show_mermaid` appends after `flowchart TD`. -/
def mermaidLines (g : Graph) : List String := mermaidLinesAux 0 (get_pipelines g)

/-- `_show_mermaid` (dag.py lines 47-70). -/
def _show_mermaid (g : Graph) (markdown : Bool) : String :=
  let body := "flowchart TD" ++ String.join ((mermaidLines g).map (fun l => "\n\t" ++ l))
  if markdown then "```mermaid\n" ++ body ++ "\n```" else body

/-- The arrow line `_show_mermaid` emits for a dependency edge `(A, B)` of a
pipeline whose identifiers start at offset `base`: it runs from B's
synthetic identifier to A's. -/
def mermaidArrow (base : Nat) (p : Graph) (A B : String) : String :=
  lookupId (node_ids p base) B ++ "-->" ++ lookupId (node_ids p base) A

/-- A pipeline stage as `_collect_targets` sees it: its addressing name and
the string labels of its outputs. -/
structure Stage where
  addressing : String
  outs : List String

/-- `_collect_targets` (dag.py lines 73-92), embedded over the externally
produced data: `pairs` stands for `repo.stage.collect_granular(target)` and
`trie path` for the list of `str(out)` over the outputs found under `path`'s
prefix in `repo.index.outs_trie`.  In the path-qualified branch the source
runs `targets.extend(str(out))`, which extends with the characters of the
label, modelled one single-character string per character. -/
def _collect_targets (target : String) (pairs : List (Stage × String))
    (trie : String → List String) (outs : Bool) : List String :=
  if target = "" then []
  else if outs = false then pairs.map (fun q => q.1.addressing)
  else
    pairs.foldl
      (fun targets q =>
        if q.2 = "" then targets ++ q.1.outs
        else (trie q.2).foldl
          (fun ts out => ts ++ out.data.map (fun c => String.mk [c])) targets)
      []

/-- The graph is a DAG: no node reaches itself through at least one edge. -/
def Acyclic (g : Graph) : Prop :=
  ∀ n ∈ g.nodes, n ∉ descendants g n

instance (g : Graph) : Decidable (Acyclic g) := by
  unfold Acyclic; infer_instance

section ClosureLemmas

variable (nodes : Finset String) (r : String → String → Bool)

theorem subset_stepOnce (s : Finset String) : s ⊆ stepOnce nodes r s :=
  Finset.subset_union_left

theorem stepOnce_subset (s : Finset String) : stepOnce nodes r s ⊆ s ∪ nodes :=
  Finset.union_subset Finset.subset_union_left
    ((Finset.filter_subset _ _).trans Finset.subset_union_right)

theorem subset_closureFuel : ∀ (n : Nat) (s : Finset String), s ⊆ closureFuel nodes r n s := by
  intro n
  induction n with
  | zero => intro s; exact Finset.Subset.refl s
  | succ n ih =>
    intro s
    exact (subset_stepOnce nodes r s).trans (ih (stepOnce nodes r s))

theorem closureFuel_subset : ∀ (n : Nat) (s : Finset String),
    closureFuel nodes r n s ⊆ s ∪ nodes := by
  intro n
  induction n with
  | zero => intro s; exact Finset.subset_union_left
  | succ n ih =>
    intro s
    refine (ih (stepOnce nodes r s)).trans ?_
    exact Finset.union_subset
      ((stepOnce_subset nodes r s).trans (Finset.union_subset_union_right (le_refl nodes)))
      Finset.subset_union_right

theorem closureFuel_of_stable {s : Finset String} (h : stepOnce nodes r s = s) :
    ∀ n : Nat, closureFuel nodes r n s = s := by
  intro n
  induction n with
  | zero => rfl
  | succ n ih => show closureFuel nodes r n (stepOnce nodes r s) = s; rw [h, ih]

theorem stable_or_card : ∀ (n : Nat) (s : Finset String),
    stepOnce nodes r (closureFuel nodes r n s) = closureFuel nodes r n s ∨
      s.card + n ≤ (closureFuel nodes r n s).card := by
  intro n
  induction n with
  | zero => intro s; right; simp [closureFuel]
  | succ n ih =>
    intro s
    by_cases h : stepOnce nodes r s = s
    · left
      show stepOnce nodes r (closureFuel nodes r n (stepOnce nodes r s)) =
        closureFuel nodes r n (stepOnce nodes r s)
      rw [h, closureFuel_of_stable nodes r h n]
      exact h
    · rcases ih (stepOnce nodes r s) with h1 | h1
      · left; exact h1
      · right
        have hlt : s.card < (stepOnce nodes r s).card :=
          Finset.card_lt_card (HasSubset.Subset.ssubset_of_ne
            (subset_stepOnce nodes r s) (fun he => h he.symm))
        show s.card + (n + 1) ≤ (closureFuel nodes r n (stepOnce nodes r s)).card
        omega

theorem stepOnce_reachSet {a : String} (ha : a ∈ nodes) :
    stepOnce nodes r (reachSet nodes r a) = reachSet nodes r a := by
  rcases stable_or_card nodes r nodes.card {a} with h | h
  · exact h
  · exfalso
    have hsub : closureFuel nodes r nodes.card {a} ⊆ nodes := by
      refine (closureFuel_subset nodes r nodes.card {a}).trans ?_
      rw [Finset.union_eq_right.mpr (Finset.singleton_subset_iff.mpr ha)]
    have hcard := Finset.card_le_card hsub
    simp only [Finset.card_singleton] at h
    omega

theorem reaches_of_mem_closureFuel {a : String} :
    ∀ (n : Nat) (s : Finset String), (∀ x ∈ s, Reaches nodes r a x) →
      ∀ b ∈ closureFuel nodes r n s, Reaches nodes r a b := by
  intro n
  induction n with
  | zero => intro s hs b hb; exact hs b hb
  | succ n ih =>
    intro s hs b hb
    refine ih (stepOnce nodes r s) ?_ b hb
    intro x hx
    rcases Finset.mem_union.mp hx with hx | hx
    · exact hs x hx
    · rcases Finset.mem_filter.mp hx with ⟨hxn, u, hu, hru⟩
      exact (hs u hu).tail ⟨hru, hxn⟩

theorem mem_reachSet_self (a : String) : a ∈ reachSet nodes r a :=
  subset_closureFuel nodes r nodes.card {a} (Finset.mem_singleton_self a)

theorem mem_reachSet_of_reaches {a b : String} (ha : a ∈ nodes)
    (h : Reaches nodes r a b) : b ∈ reachSet nodes r a := by
  induction h with
  | refl => exact mem_reachSet_self nodes r a
  | tail _ hbc ih =>
    rw [← stepOnce_reachSet nodes r ha]
    exact Finset.mem_union_right _
      (Finset.mem_filter.mpr ⟨hbc.2, _, ih, hbc.1⟩)

theorem mem_reachSet_iff {a b : String} (ha : a ∈ nodes) :
    b ∈ reachSet nodes r a ↔ Reaches nodes r a b := by
  constructor
  · intro hb
    refine reaches_of_mem_closureFuel nodes r nodes.card {a} ?_ b hb
    intro x hx
    cases Finset.mem_singleton.mp hx
    exact Relation.ReflTransGen.refl
  · exact mem_reachSet_of_reaches nodes r ha

theorem reachSet_subset {a : String} (ha : a ∈ nodes) :
    reachSet nodes r a ⊆ nodes := by
  refine (closureFuel_subset nodes r nodes.card {a}).trans ?_
  rw [Finset.union_eq_right.mpr (Finset.singleton_subset_iff.mpr ha)]

theorem reaches_mono {r' : String → String → Bool}
    (hrr : ∀ x y, r x y = true → r' x y = true) {a b : String}
    (h : Reaches nodes r a b) : Reaches nodes r' a b :=
  Relation.ReflTransGen.mono (fun x y hxy => ⟨hrr x y hxy.1, hxy.2⟩) h

end ClosureLemmas

section GraphLemmas

theorem mem_remove_set_nodes {g : Graph} {s : Finset String} {n : String} :
    n ∈ (remove_nodes_from_set g s).nodes ↔ n ∈ g.nodes ∧ n ∉ s := by
  simp [remove_nodes_from_set, List.mem_filter]

theorem mem_remove_set_edges {g : Graph} {s : Finset String} {e : String × String} :
    e ∈ (remove_nodes_from_set g s).edges ↔ e ∈ g.edges ∧ e.1 ∉ s ∧ e.2 ∉ s := by
  simp [remove_nodes_from_set, List.mem_filter]

end GraphLemmas

section ScopeFilterLemmas

theorem descendants_insert_eq {g : Graph} {T : String} :
    insert T (descendants g T) = reachSet g.nodes.toFinset (edgeRel g) T :=
  Finset.insert_erase (mem_reachSet_self _ _ T)

theorem mem_insert_descendants_iff {g : Graph} {T : String} (hT : T ∈ g.nodes)
    {v : String} :
    v ∈ insert T (descendants g T) ↔ Reaches g.nodes.toFinset (edgeRel g) T v := by
  rw [descendants_insert_eq]
  exact mem_reachSet_iff _ _ (List.mem_toFinset.mpr hT)

theorem insert_descendants_subset {g : Graph} {T : String} (hT : T ∈ g.nodes) :
    insert T (descendants g T) ⊆ g.nodes.toFinset := by
  rw [descendants_insert_eq]
  exact reachSet_subset _ _ (List.mem_toFinset.mpr hT)

theorem remove_sdiff_nodes_toFinset (g : Graph) (c : Finset String) :
    (remove_nodes_from_set g (g.nodes.toFinset \ c)).nodes.toFinset =
      g.nodes.toFinset ∩ c := by
  ext v
  simp only [List.mem_toFinset, mem_remove_set_nodes, Finset.mem_sdiff, not_and,
    not_not, Finset.mem_inter]
  constructor
  · rintro ⟨hv, himp⟩
    exact ⟨hv, himp hv⟩
  · rintro ⟨hv, hvc⟩
    exact ⟨hv, fun _ => hvc⟩

/-- Unfolding `_filter` on a singleton target with `full = false`. -/
theorem filter_single_unfold (g : Graph) (T : String) :
    _filter g [T] false =
      remove_nodes_from_set
        (remove_nodes_from_set g (g.nodes.toFinset \ ((∅ ∪ descendants g T) ∪ {T})))
        ((remove_nodes_from_set g
            (g.nodes.toFinset \ ((∅ ∪ descendants g T) ∪ {T}))).nodes.toFinset \
          (∅ ∪ node_connected_component
            (remove_nodes_from_set g
              (g.nodes.toFinset \ ((∅ ∪ descendants g T) ∪ {T}))) T)) := rfl

/-- Every node reachable from `T` in the dependency direction is still
undirected-reachable from `T` inside the graph restricted to
`{T} ∪ descendants(T)`: the restriction keeps every edge of the witnessing
path. -/
theorem reaches_undir_in_filtered (g : Graph) (T : String) (hT : T ∈ g.nodes)
    {v : String} (hR : Reaches g.nodes.toFinset (edgeRel g) T v) :
    Reaches (remove_nodes_from_set g
        (g.nodes.toFinset \ insert T (descendants g T))).nodes.toFinset
      (undirRel (remove_nodes_from_set g
        (g.nodes.toFinset \ insert T (descendants g T)))) T v := by
  induction hR with
  | refl => exact Relation.ReflTransGen.refl
  | @tail b c hab hbc ih =>
    have hbD : b ∈ insert T (descendants g T) :=
      (mem_insert_descendants_iff hT).mpr hab
    have hcD : c ∈ insert T (descendants g T) :=
      (mem_insert_descendants_iff hT).mpr (hab.tail hbc)
    have hcg : c ∈ g.nodes := List.mem_toFinset.mp ((insert_descendants_subset hT) hcD)
    have hedge : (b, c) ∈ g.edges := of_decide_eq_true hbc.1
    have hbnot : b ∉ g.nodes.toFinset \ insert T (descendants g T) := by
      simp [Finset.mem_sdiff, hbD]
    have hcnot : c ∉ g.nodes.toFinset \ insert T (descendants g T) := by
      simp [Finset.mem_sdiff, hcD]
    refine ih.tail ⟨?_, ?_⟩
    · have hmem : (b, c) ∈ (remove_nodes_from_set g
          (g.nodes.toFinset \ insert T (descendants g T))).edges :=
        mem_remove_set_edges.mpr ⟨hedge, hbnot, hcnot⟩
      simp [undirRel, edgeRel, hmem]
    · exact List.mem_toFinset.mpr (mem_remove_set_nodes.mpr ⟨hcg, hcnot⟩)

end ScopeFilterLemmas

/-- Claim C4: for every directed acyclic label graph and every single target
label T present in it, `_filter` with `full = false` returns a graph whose
node set equals {T} ∪ descendants(T) in the dependency direction,
intersected with the undirected connected component of T. -/
theorem c4_filter_single_target (g : Graph) (hwf : g.Wf) (hdag : Acyclic g)
    (T : String) (hT : T ∈ g.nodes) :
    (_filter g [T] false).nodes.toFinset =
      insert T (descendants g T) ∩ node_connected_component g T := by
  have hTf : T ∈ g.nodes.toFinset := List.mem_toFinset.mpr hT
  have hDfold : (∅ ∪ descendants g T) ∪ {T} = insert T (descendants g T) := by
    rw [Finset.empty_union, Finset.union_comm, Finset.insert_eq]
  rw [filter_single_unfold, hDfold, Finset.empty_union]
  set D := insert T (descendants g T) with hDdef
  set ng := remove_nodes_from_set g (g.nodes.toFinset \ D) with hngdef
  have hng_nodes : ng.nodes.toFinset = D := by
    rw [hngdef, remove_sdiff_nodes_toFinset]
    exact Finset.inter_eq_right.mpr (insert_descendants_subset hT)
  have hTD : T ∈ D := by rw [hDdef]; exact Finset.mem_insert_self _ _
  have hTng : T ∈ ng.nodes.toFinset := by rw [hng_nodes]; exact hTD
  have hCsub : node_connected_component ng T ⊆ D := by
    have h1 := reachSet_subset ng.nodes.toFinset (undirRel ng) hTng
    exact h1.trans (le_of_eq hng_nodes)
  have hDsubC : D ⊆ node_connected_component ng T := by
    intro v hv
    have hR : Reaches g.nodes.toFinset (edgeRel g) T v := by
      rw [hDdef] at hv
      exact (mem_insert_descendants_iff hT).mp hv
    have hu := reaches_undir_in_filtered g T hT hR
    rw [← hDdef, ← hngdef] at hu
    exact (mem_reachSet_iff ng.nodes.toFinset (undirRel ng) hTng).mpr hu
  have hC : node_connected_component ng T = D :=
    Finset.Subset.antisymm hCsub hDsubC
  have hcomp : D ⊆ node_connected_component g T := by
    intro v hv
    have hR : Reaches g.nodes.toFinset (edgeRel g) T v := by
      rw [hDdef] at hv
      exact (mem_insert_descendants_iff hT).mp hv
    exact (mem_reachSet_iff _ _ hTf).mpr
      (reaches_mono g.nodes.toFinset (edgeRel g)
        (fun x y hxy => by simp [undirRel, hxy]) hR)
  rw [remove_sdiff_nodes_toFinset, hng_nodes, hC, Finset.inter_self,
    Finset.inter_eq_left.mpr hcomp]

/-- Witness for the single-target scope theorem on the concrete DAG
A→B→C, D→C with target B. -/
theorem c4_filter_single_target_witness :
    ({ nodes := ["A", "B", "C", "D"],
       edges := [("A", "B"), ("B", "C"), ("D", "C")] } : Graph).Wf ∧
    Acyclic { nodes := ["A", "B", "C", "D"],
              edges := [("A", "B"), ("B", "C"), ("D", "C")] } ∧
    "B" ∈ ({ nodes := ["A", "B", "C", "D"],
             edges := [("A", "B"), ("B", "C"), ("D", "C")] } : Graph).nodes ∧
    (_filter { nodes := ["A", "B", "C", "D"],
               edges := [("A", "B"), ("B", "C"), ("D", "C")] } ["B"] false).nodes.toFinset =
      insert "B" (descendants { nodes := ["A", "B", "C", "D"],
                                edges := [("A", "B"), ("B", "C"), ("D", "C")] } "B") ∩
        node_connected_component { nodes := ["A", "B", "C", "D"],
                                   edges := [("A", "B"), ("B", "C"), ("D", "C")] } "B" :=
  ⟨by decide, by decide, by decide,
    c4_filter_single_target _ (by decide) (by decide) "B" (by decide)⟩

/-- Claim C10: on the empty graph `_collapse_graph` does not return a graph:
the representative-node computation reads the node-iteration variable after
iterating over an empty node list, which raises (modelled as `none`). -/
theorem c10_collapse_empty_graph_fails :
    _collapse_graph { nodes := [], edges := [] } = none := rfl

/-- Claim C5 (code behaviour at the failing input): on the empty graph, which
contains no separator-labelled node, `_collapse_graph` fails instead of
returning a graph with unchanged node and edge sets. -/
theorem c5_collapse_empty_graph_not_identity :
    (_collapse_graph { nodes := [], edges := [] }).isNone = true := rfl

/-- Claim C2 (code behaviour at the failing input): collapsing the graph with
nodes `a@1`, `b@2` and no edges removes both members but produces only the
representative of the last iterated node, `b`; group `a` gets no
representative, contradicting one-representative-per-group. -/
theorem c2_collapse_loses_groups :
    _collapse_graph { nodes := ["a@1", "b@2"], edges := [] } =
      some { nodes := ["b"], edges := [] } := by decide

/-- Claim C3 (code behaviour at the failing input): collapsing a graph with a
direct edge between two same-group nodes `build@1 → build@2` retains the
self-edge `(build, build)` on the representative. -/
theorem c3_collapse_keeps_self_edge :
    _collapse_graph
        { nodes := ["build@1", "build@2"], edges := [("build@1", "build@2")] } =
      some { nodes := ["build"], edges := [("build", "build")] } := by decide

/-- Claim C1 (code behaviour at the failing input): `_build` with collapse
requested applies the collapse to the pre-filter graph, so node `z`, removed
by the scope filter for target `x`, reappears in the returned graph; the
collapse of the actually filtered graph would not contain it. -/
theorem c1_build_collapses_unfiltered_graph :
    _build { nodes := ["x", "z"], edges := [] } ["x"] false true =
        some { nodes := ["x", "z"], edges := [] } ∧
      _collapse_graph (_filter { nodes := ["x", "z"], edges := [] } ["x"] false) =
        some { nodes := ["x"], edges := [] } :=
  ⟨by decide, by decide⟩

/-- Claim C9 (code behaviour at the failing input): for a target matched with
the sub-path `d` and one output `d/f` found under it, `_collect_targets`
with outs=true returns the characters of the output label as separate
elements instead of one element equal to the label. -/
theorem c9_collect_targets_splats_characters :
    _collect_targets "t" [({ addressing := "s", outs := [] }, "d")]
        (fun _ => ["d/f"]) true = ["d", "/", "f"] := by decide

section RelabelLemmas

theorem mapOption_mem {α β : Type} {f : α → Option β} :
    ∀ {l : List α} {l' : List β}, mapOption f l = some l' →
      ∀ {a : α}, a ∈ l → ∀ {b : β}, f a = some b → b ∈ l' := by
  intro l
  induction l with
  | nil => intro l' _ a ha; exact absurd ha (List.not_mem_nil a)
  | cons x xs ih =>
    intro l' h a ha b hb
    unfold mapOption at h
    rcases hfx : f x with _ | bx <;> rw [hfx] at h
    · simp at h
    rcases hm : mapOption f xs with _ | bs <;> rw [hm] at h
    · simp at h
    simp only [Option.some.injEq] at h
    subst h
    rcases List.mem_cons.mp ha with rfl | ha'
    · rw [hfx] at hb
      simp only [Option.some.injEq] at hb
      subst hb
      exact List.mem_cons_self _ _
    · exact List.mem_cons_of_mem _ (ih hm ha' hb)

theorem mapOption_mem_rev {α β : Type} {f : α → Option β} :
    ∀ {l : List α} {l' : List β}, mapOption f l = some l' →
      ∀ {b : β}, b ∈ l' → ∃ a ∈ l, f a = some b := by
  intro l
  induction l with
  | nil =>
    intro l' h b hb
    unfold mapOption at h
    simp only [Option.some.injEq] at h
    subst h
    exact absurd hb (List.not_mem_nil b)
  | cons x xs ih =>
    intro l' h b hb
    unfold mapOption at h
    rcases hfx : f x with _ | bx <;> rw [hfx] at h
    · simp at h
    rcases hm : mapOption f xs with _ | bs <;> rw [hm] at h
    · simp at h
    simp only [Option.some.injEq] at h
    subst h
    rcases List.mem_cons.mp hb with rfl | hb'
    · exact ⟨x, List.mem_cons_self x xs, hfx⟩
    · obtain ⟨a, ha, hfa⟩ := ih hm hb'
      exact ⟨a, List.mem_cons_of_mem x ha, hfa⟩

theorem relabel_nodes_edge_mem {f : String → Option String} {g g' : Graph}
    (h : relabel_nodes f g = some g') {e : String × String} (he : e ∈ g.edges)
    {qa qb : String} (h1 : f e.1 = some qa) (h2 : f e.2 = some qb) :
    (qa, qb) ∈ g'.edges := by
  unfold relabel_nodes at h
  rcases hns : mapOption f g.nodes with _ | ns <;> rw [hns] at h
  · simp at h
  rcases hes : mapOption (relabelEdge f) g.edges with _ | es <;> rw [hes] at h
  · simp at h
  simp only [Option.some.injEq] at h
  subst h
  apply List.mem_dedup.mpr
  refine mapOption_mem hes he ?_
  simp [relabelEdge, h1, h2]

/-- Whatever `_quote_label` returns starts or ends with a double quote. -/
theorem quote_label_shape {a b : String} (hqa : _quote_label a = some b) :
    b.data.head? = some '"' ∨ b.data.getLast? = some '"' := by
  obtain ⟨l⟩ := a
  cases l with
  | nil => simp [_quote_label] at hqa
  | cons c cs =>
    simp only [_quote_label] at hqa
    split at hqa
    case isTrue hcond =>
      simp only [Option.some.injEq] at hqa
      subst hqa
      left
      rfl
    case isFalse hcond =>
      simp only [Option.some.injEq] at hqa
      subst hqa
      rcases not_and_or.mp hcond with hc | hl
      · left
        simpa using not_not.mp hc
      · right
        rw [show (String.mk (c :: cs)).data = c :: cs from rfl,
          List.getLast?_eq_getLast _ (List.cons_ne_nil c cs)]
        simpa using not_not.mp hl

theorem relabel_nodes_node_shape {g g' : Graph}
    (h : relabel_nodes _quote_label g = some g') {b : String} (hb : b ∈ g'.nodes) :
    b.data.head? = some '"' ∨ b.data.getLast? = some '"' := by
  unfold relabel_nodes at h
  rcases hns : mapOption _quote_label g.nodes with _ | ns <;> rw [hns] at h
  · simp at h
  rcases hes : mapOption (relabelEdge _quote_label) g.edges with _ | es <;> rw [hes] at h
  · simp at h
  simp only [Option.some.injEq] at h
  subst h
  obtain ⟨a, _, hqa⟩ := mapOption_mem_rev hns (List.mem_dedup.mp hb)
  exact quote_label_shape hqa

end RelabelLemmas

/-- Claim C8 counterexample: the label `a"` ends (but does not begin) with a
double quote; the claim predicts it gets wrapped, yet `_quote_label` returns
it unchanged, and the unchanged label differs from the wrapped one. -/
theorem c8_quote_label_counterexample :
    _quote_label "a\"" = some "a\"" ∧ ("a\"" : String) ≠ "\"a\"\"" :=
  ⟨by decide, by decide⟩

/-- Claim C8 as amended: for every non-empty label, `_quote_label` returns
the label unchanged when it begins or ends with a double quote, and
otherwise returns it wrapped in double quotes. -/
theorem c8_quote_label_amended (label : String) (h : label.data ≠ []) :
    _quote_label label =
      some (if label.data.head? = some '"' ∨ label.data.getLast? = some '"'
        then label else String.mk ('"' :: label.data ++ ['"'])) := by
  obtain ⟨l⟩ := label
  cases l with
  | nil => exact absurd rfl h
  | cons c cs =>
    simp only [_quote_label]
    rw [List.head?_cons, List.getLast?_eq_getLast _ (List.cons_ne_nil c cs)]
    by_cases hc : c = '"'
    · have hcond : ¬(c ≠ '"' ∧ (c :: cs).getLast (List.cons_ne_nil c cs) ≠ '"') :=
        fun hx => hx.1 hc
      rw [if_neg hcond, if_pos (Or.inl (by rw [hc]))]
    · by_cases hl : (c :: cs).getLast (List.cons_ne_nil c cs) = '"'
      · have hcond : ¬(c ≠ '"' ∧ (c :: cs).getLast (List.cons_ne_nil c cs) ≠ '"') :=
          fun hx => hx.2 hl
        rw [if_neg hcond, if_pos (Or.inr (by rw [hl]))]
      · rw [if_pos ⟨hc, hl⟩, if_neg]
        rintro (h1 | h2)
        · exact hc (Option.some_inj.mp h1)
        · exact hl (Option.some_inj.mp h2)

/-- Witness for the amended quoting theorem at the unquoted label `a`. -/
theorem c8_quote_label_amended_witness :
    ("a" : String).data ≠ [] ∧
      _quote_label "a" =
        some (if ("a" : String).data.head? = some '"' ∨
            ("a" : String).data.getLast? = some '"'
          then "a" else String.mk ('"' :: ("a" : String).data ++ ['"'])) :=
  ⟨by decide, c8_quote_label_amended "a" (by decide)⟩

/-- Claim C7 counterexample: `_show_dot` relabels its input in place, so
after the call on the one-node graph `a` the caller's graph no longer equals
the original. -/
theorem c7_show_dot_mutates_counterexample :
    (_show_dot { nodes := ["a"], edges := [] }).map Prod.snd ≠
      some { nodes := ["a"], edges := [] } := by decide

/-- Claim C7 as amended: `_show_dot` does not leave its input unchanged:
whenever it succeeds and some node label neither begins nor ends with a
double quote, the post-call state of the caller's graph has a different node
set (every label was replaced by its quoted form in place). -/
theorem c7_show_dot_mutates (g out post : Graph)
    (h : _show_dot g = some (out, post)) (n : String) (hn : n ∈ g.nodes)
    (h1 : n.data.head? ≠ some '"') (h2 : n.data.getLast? ≠ some '"') :
    post.nodes.toFinset ≠ g.nodes.toFinset := by
  intro heq
  unfold _show_dot at h
  rcases hrel : relabel_nodes _quote_label g with _ | r <;> rw [hrel] at h
  · cases h
  simp only [Option.some.injEq, Prod.mk.injEq] at h
  obtain ⟨_, hmut⟩ := h
  have hn' : n ∈ post.nodes := by
    have hnf : n ∈ post.nodes.toFinset := by
      rw [heq]
      exact List.mem_toFinset.mpr hn
    exact List.mem_toFinset.mp hnf
  rw [← hmut] at hn'
  rcases relabel_nodes_node_shape hrel hn' with hs | hs
  · exact h1 hs
  · exact h2 hs

/-- Witness for the mutation theorem on the one-node graph `a`. -/
theorem c7_show_dot_mutates_witness :
    _show_dot { nodes := ["a"], edges := [] } =
        some ({ nodes := ["\"a\""], edges := [] }, { nodes := ["\"a\""], edges := [] }) ∧
      ({ nodes := ["\"a\""], edges := [] } : Graph).nodes.toFinset ≠
        ({ nodes := ["a"], edges := [] } : Graph).nodes.toFinset :=
  ⟨by decide,
    c7_show_dot_mutates { nodes := ["a"], edges := [] }
      { nodes := ["\"a\""], edges := [] } { nodes := ["\"a\""], edges := [] }
      (by decide) "a" (by decide) (by decide) (by decide)⟩

section MermaidLemmas

theorem mermaid_lines_of_pipeline :
    ∀ (ps : List Graph) (b0 : Nat) (p : Graph), p ∈ ps →
      ∃ base, ∀ l ∈ mermaidPipelineLines base p, l ∈ mermaidLinesAux b0 ps := by
  intro ps
  induction ps with
  | nil => intro b0 p hp; exact absurd hp (List.not_mem_nil p)
  | cons q qs ih =>
    intro b0 p hp
    rcases List.mem_cons.mp hp with rfl | hp'
    · refine ⟨b0, fun l hl => ?_⟩
      show l ∈ mermaidPipelineLines b0 p ++ mermaidLinesAux (b0 + p.nodes.length) qs
      exact List.mem_append_left _ hl
    · obtain ⟨base, hbase⟩ := ih (b0 + q.nodes.length) p hp'
      refine ⟨base, fun l hl => ?_⟩
      show l ∈ mermaidPipelineLines b0 q ++ mermaidLinesAux (b0 + q.nodes.length) qs
      exact List.mem_append_right _ (hbase l hl)

theorem arrow_mem_pipeline_lines {p : Graph} {A B : String}
    (hAB : (A, B) ∈ p.edges) (base : Nat) :
    mermaidArrow base p A B ∈ mermaidPipelineLines base p := by
  simp only [mermaidPipelineLines, mermaidArrow]
  apply List.mem_append_right
  have h1 : (B, A) ∈ p.edges.map (fun e => (e.2, e.1)) :=
    List.mem_map.mpr ⟨(A, B), hAB, rfl⟩
  have h2 : (B, A) ∈ sortedPairs (p.edges.map (fun e => (e.2, e.1))) :=
    ((List.perm_insertionSort pairLe _).mem_iff).mpr h1
  exact List.mem_map.mpr ⟨(B, A), h2, rfl⟩

end MermaidLemmas

/-- Claim C6: for every edge (A, B) of the label graph (A depends on B), both
renderings express the relation as B → A: the graph `_show_dot` hands to the
dot writer contains the reversed quoted edge, and `_show_mermaid` emits the
arrow line from B's synthetic identifier to A's. -/
theorem c6_renderings_reverse_edges (g : Graph) (A B : String)
    (hAB : (A, B) ∈ g.edges) (out post : Graph)
    (hdot : _show_dot g = some (out, post)) (qA qB : String)
    (hqA : _quote_label A = some qA) (hqB : _quote_label B = some qB)
    (p : Graph) (hp : p ∈ get_pipelines g) (hABp : (A, B) ∈ p.edges) :
    (qB, qA) ∈ out.edges ∧
      ∃ base, mermaidArrow base p A B ∈ mermaidLines g := by
  constructor
  · unfold _show_dot at hdot
    rcases hrel : relabel_nodes _quote_label g with _ | r <;> rw [hrel] at hdot
    · cases hdot
    simp only [Option.some.injEq, Prod.mk.injEq] at hdot
    obtain ⟨hout, _⟩ := hdot
    subst hout
    have hmem := relabel_nodes_edge_mem hrel hAB hqA hqB
    exact List.mem_map.mpr ⟨(qA, qB), hmem, rfl⟩
  · obtain ⟨base, hbase⟩ := mermaid_lines_of_pipeline (get_pipelines g) 0 p hp
    exact ⟨base, hbase _ (arrow_mem_pipeline_lines hABp base)⟩

/-- Witness for the edge-reversal theorem on the two-node graph where `a`
depends on `b`. -/
theorem c6_renderings_reverse_edges_witness :
    (("\"b\"", "\"a\"") ∈
        ({ nodes := ["\"a\"", "\"b\""], edges := [("\"b\"", "\"a\"")] } : Graph).edges) ∧
      ∃ base, mermaidArrow base { nodes := ["a", "b"], edges := [("a", "b")] } "a" "b" ∈
        mermaidLines { nodes := ["a", "b"], edges := [("a", "b")] } :=
  c6_renderings_reverse_edges { nodes := ["a", "b"], edges := [("a", "b")] }
    "a" "b" (by decide)
    { nodes := ["\"a\"", "\"b\""], edges := [("\"b\"", "\"a\"")] }
    { nodes := ["\"a\"", "\"b\""], edges := [("\"a\"", "\"b\"")] }
    (by decide) "\"a\"" "\"b\"" (by decide) (by decide)
    { nodes := ["a", "b"], edges := [("a", "b")] } (by decide) (by decide)

end DvcDag
